import Mathlib

/-!
Verification of the attendance buffer/projection engine of the
campus-attend repository.

Embedded source:
* `calculate_attendance_buffer`
  (supabase/migrations/001_core_schema.sql) — PL/pgSQL stored procedure
  computing the buffer result from the counts it reads; the pure
  arithmetic core is embedded here with the counts and the threshold as
  parameters (the repository reads are the external interface).
  PostgreSQL NUMERIC arithmetic is exact decimal arithmetic, embedded as
  ℚ; `ROUND(x, 4)` rounds half away from zero; `CEIL` is the exact
  ceiling; INT variables are embedded as ℤ.
* `fetchTrendData` (src/hooks, part_008) — TypeScript incremental fold
  over the chronological attendance record stream; JavaScript number
  arithmetic on these small counts is embedded as exact ℚ arithmetic,
  `Math.round` as floor (x + 1/2).
-/

/-- Attendance record status (SQL:
`status IN ('present','absent','on_duty','medical')`). -/
inductive Status where
  | present
  | absent
  | on_duty
  | medical
deriving DecidableEq, Repr

/-- Shared classification rule: SQL `status IN ('present','on_duty')`,
TS `status === 'present' || status === 'on_duty'`. -/
def isAttended : Status → Bool
  | .present => true
  | .on_duty => true
  | _ => false

/-- PostgreSQL `ROUND(x, n)` on NUMERIC: round to `n` decimal places,
ties away from zero. -/
def pgRound (n : ℕ) (x : ℚ) : ℚ :=
  if 0 ≤ x then (⌊x * 10 ^ n + 1 / 2⌋ : ℚ) / 10 ^ n
  else -((⌊-x * 10 ^ n + 1 / 2⌋ : ℚ) / 10 ^ n)

/-- SQL: `IF v_held_count > 0 THEN v_current_pct := v_present_count::NUMERIC
/ v_held_count; ELSE v_current_pct := 1.0; END IF;` (unrounded value). -/
def current_pct_raw (held present : ℤ) : ℚ :=
  if 0 < held then (present : ℚ) / (held : ℚ) else 1

/-- SQL: `v_remaining := GREATEST(v_total_planned - v_held_count, 0);` -/
def remaining_calc (planned held : ℤ) : ℤ :=
  max (planned - held) 0

/-- SQL: `CEIL(v_threshold * v_total_planned)::INT` (the cast is exact on
the integral NUMERIC that CEIL returns). -/
def required_total (threshold : ℚ) (planned : ℤ) : ℤ :=
  ⌈threshold * (planned : ℚ)⌉

/-- SQL: `v_buffer_classes := GREATEST((v_present_count + v_remaining) -
CEIL(v_threshold * v_total_planned)::INT, 0);` -/
def buffer_classes_calc (threshold : ℚ) (planned held present : ℤ) : ℤ :=
  max ((present + remaining_calc planned held) - required_total threshold planned) 0

/-- SQL: `IF v_total_planned > 0 THEN v_projected_pct := (v_present_count
+ v_remaining)::NUMERIC / v_total_planned; ELSE v_projected_pct :=
v_current_pct; END IF;` (unrounded value). -/
def projected_pct_raw (planned held present : ℤ) : ℚ :=
  if 0 < planned then ((present + remaining_calc planned held : ℤ) : ℚ) / (planned : ℚ)
  else current_pct_raw held present

/-- The JSONB object returned by `calculate_attendance_buffer`. -/
structure BufferResult where
  present_count : ℤ
  held_count : ℤ
  total_planned : ℤ
  current_pct : ℚ
  buffer_classes : ℤ
  projected_pct : ℚ
  is_safe : Bool
deriving DecidableEq, Repr

/-- Pure core of the stored procedure `calculate_attendance_buffer`:
its arithmetic on the fetched `threshold`, `total_planned`, `held_count`,
`present_count`.  `is_safe` compares the unrounded current percentage
(`v_is_safe := v_current_pct >= v_threshold`); the returned percentages
are rounded to 4 decimal places (`ROUND(v_current_pct, 4)`,
`ROUND(v_projected_pct, 4)`). -/
def calculate_attendance_buffer (threshold : ℚ) (planned held present : ℤ) :
    BufferResult :=
  { present_count := present
    held_count := held
    total_planned := planned
    current_pct := pgRound 4 (current_pct_raw held present)
    buffer_classes := buffer_classes_calc threshold planned held present
    projected_pct := pgRound 4 (projected_pct_raw planned held present)
    is_safe := decide (threshold ≤ current_pct_raw held present) }

/-- One element of the chronological attendance record stream consumed by
`fetchTrendData`: its status and its effective date (the session's
scheduled date if known, else the marked timestamp), given as calendar
year and 1-based day of the year.  The source's
`(date.getTime() - new Date(date.getFullYear(), 0, 1).getTime()) /
86400000 + 1` is exactly `dayOfYear`. -/
structure TrendRecord where
  status : Status
  year : ℤ
  dayOfYear : ℕ
deriving DecidableEq, Repr

/-- Week key computed by `fetchTrendData`:
`` `${date.getFullYear()}-W${Math.ceil((dayOfYear) / 7)}` ``.
The string `"y-Wk"` is injectively determined by the pair `(y, k)`
(the separator `-W` cannot occur inside the decimal numerals), so the
key is embedded as that pair; `Math.ceil (d / 7)` on a natural `d` is
`(d + 6) / 7` in natural division. -/
def weekKeyOf (r : TrendRecord) : ℤ × ℕ :=
  (r.year, (r.dayOfYear + 6) / 7)

/-- JavaScript `Math.round`: round half toward positive infinity. -/
def jsRound (x : ℚ) : ℤ := ⌊x + 1 / 2⌋

/-- One point of the weekly trend chart (interface `WeeklyTrend`).
The source's `week` field is the string `` `Week ${n}` ``, injectively
determined by the numeral `n`, so it is embedded as `n` itself. -/
structure WeeklyTrend where
  week : ℕ
  pct : ℚ
  projected : ℚ
deriving DecidableEq, Repr

/-- The source's upsert:
`const existing = trends.find((t) => t.week === \x7bWeek weekNum\x7d);
if (existing) { existing.pct = pct; existing.projected = pct; } else
{ trends.push({ week, pct, projected: pct }); }` — update the first
entry with the given week label, else append at the end. -/
def upsertTrend (trends : List WeeklyTrend) (w : ℕ) (pct : ℚ) :
    List WeeklyTrend :=
  match trends with
  | [] => [⟨w, pct, pct⟩]
  | t :: ts => if t.week = w then ⟨w, pct, pct⟩ :: ts else t :: upsertTrend ts w pct

/-- The mutable state of `fetchTrendData`'s loop: the accumulator list
and the running counters `totalHeld`, `totalPresent`, `weekNum`,
`lastWeekKey` (initially the empty string, which matches no real week
key; embedded as `none`). -/
structure TrendState where
  trends : List WeeklyTrend
  totalHeld : ℕ
  totalPresent : ℕ
  weekNum : ℕ
  lastWeekKey : Option (ℤ × ℕ)
deriving DecidableEq, Repr

/-- Loop body of `fetchTrendData` for one record:
`totalHeld++; if (present || on_duty) totalPresent++;
if (weekKey !== lastWeekKey) { weekNum++; lastWeekKey = weekKey; }
const pct = totalHeld > 0 ? Math.round((totalPresent / totalHeld) *
10000) / 100 : 100;` then the upsert keyed by `weekNum`. -/
def trendStep (st : TrendState) (r : TrendRecord) : TrendState :=
  let totalHeld := st.totalHeld + 1
  let totalPresent := if isAttended r.status then st.totalPresent + 1 else st.totalPresent
  let key := weekKeyOf r
  let weekNum := if st.lastWeekKey ≠ some key then st.weekNum + 1 else st.weekNum
  let lastWeekKey := if st.lastWeekKey ≠ some key then some key else st.lastWeekKey
  let pct : ℚ :=
    if 0 < totalHeld then (jsRound ((totalPresent : ℚ) / (totalHeld : ℚ) * 10000) : ℚ) / 100
    else 100
  { trends := upsertTrend st.trends weekNum pct
    totalHeld := totalHeld
    totalPresent := totalPresent
    weekNum := weekNum
    lastWeekKey := lastWeekKey }

/-- Initial loop state of `fetchTrendData`. -/
def initTrendState : TrendState :=
  { trends := [], totalHeld := 0, totalPresent := 0, weekNum := 0,
    lastWeekKey := none }

/-- Final loop state of `fetchTrendData` on a full record stream. -/
def runTrend (records : List TrendRecord) : TrendState :=
  records.foldl trendStep initTrendState

/-- Model of `fetchTrendData` (hooks, part_008): the returned `trends` array.
The early return on empty data coincides with the fold of the empty
list. -/
def fetchTrendData (records : List TrendRecord) : List WeeklyTrend :=
  (runTrend records).trends

/-- Number of attended records in a stream — the final value of
`totalPresent`. -/
def countAttended (records : List TrendRecord) : ℕ :=
  records.countP (fun r => isAttended r.status)

/-- Cumulative percentage in `fetchTrendData`'s scale (0–100, two
decimal places): `Math.round((totalPresent / totalHeld) * 10000) / 100`. -/
def cumPct (held present : ℕ) : ℚ :=
  (jsRound ((present : ℚ) / (held : ℚ) * 10000) : ℚ) / 100

/-- The running pair `(weekNum, lastWeekKey)` of `fetchTrendData`'s loop
as a function of the processed prefix alone. -/
def weekFold (records : List TrendRecord) : ℕ × Option (ℤ × ℕ) :=
  records.foldl
    (fun acc r => if acc.2 ≠ some (weekKeyOf r) then (acc.1 + 1, some (weekKeyOf r)) else acc)
    (0, none)

/-- An upsert whose label is absent appends the new point at the end. -/
theorem upsertTrend_of_not_mem :
    ∀ (trends : List WeeklyTrend) (w : ℕ) (pct : ℚ),
      w ∉ trends.map (fun t => t.week) →
      upsertTrend trends w pct = trends ++ [⟨w, pct, pct⟩] := by
  intro trends
  induction trends with
  | nil => intro w pct _; rfl
  | cons t ts ih =>
    intro w pct h
    simp only [List.map_cons, List.mem_cons] at h
    push_neg at h
    have hne : ¬ t.week = w := fun hc => h.1 hc.symm
    simp only [upsertTrend, if_neg hne, List.cons_append, List.cons.injEq, true_and]
    exact ih w pct h.2

/-- An upsert whose label is the greatest of the consecutive labels
`s, s+1, …, s+k` carried by the list replaces the final point. -/
theorem upsertTrend_range' :
    ∀ (k s : ℕ) (trends : List WeeklyTrend) (pct : ℚ),
      trends.map (fun t => t.week) = List.range' s (k + 1) →
      upsertTrend trends (s + k) pct = trends.dropLast ++ [⟨s + k, pct, pct⟩] := by
  intro k
  induction k with
  | zero =>
    intro s trends pct h
    match trends with
    | [] => simp at h
    | [t] =>
      have ht : t.week = s := by simpa using h
      simp [upsertTrend, ht]
    | t :: t' :: ts => simp [List.range'_succ] at h
  | succ k ih =>
    intro s trends pct h
    match trends with
    | [] => simp at h
    | t :: ts =>
      rw [List.range'_succ s (k + 1) 1, List.map_cons] at h
      have ht : t.week = s := (List.cons.injEq _ _ _ _).mp h |>.1
      have hts : ts.map (fun t => t.week) = List.range' (s + 1) (k + 1) :=
        (List.cons.injEq _ _ _ _).mp h |>.2
      have htsne : ts ≠ [] := by
        intro hc
        rw [hc] at hts
        simp [List.range'_succ] at hts
      have hne : ¬ t.week = s + (k + 1) := by omega
      simp only [upsertTrend, if_neg hne]
      rw [List.dropLast_cons_of_ne_nil htsne, List.cons_append, List.cons.injEq]
      refine ⟨rfl, ?_⟩
      have := ih (s + 1) ts pct hts
      rw [show s + (k + 1) = s + 1 + k by omega]
      exact this

/-- Membership in an upsert result: a point is the upserted one or one
that was already present. -/
theorem mem_upsertTrend :
    ∀ {t : WeeklyTrend} {trends : List WeeklyTrend} {w : ℕ} {pct : ℚ},
      t ∈ upsertTrend trends w pct → t = ⟨w, pct, pct⟩ ∨ t ∈ trends := by
  intro t trends
  induction trends with
  | nil =>
    intro w pct h
    simp only [upsertTrend, List.mem_singleton] at h
    exact Or.inl h
  | cons s ts ih =>
    intro w pct h
    simp only [upsertTrend] at h
    by_cases hc : s.week = w
    · rw [if_pos hc] at h
      rcases List.mem_cons.mp h with h1 | h1
      · exact Or.inl h1
      · exact Or.inr (List.mem_cons_of_mem _ h1)
    · rw [if_neg hc] at h
      rcases List.mem_cons.mp h with h1 | h1
      · exact Or.inr (h1 ▸ List.mem_cons_self _ _)
      · rcases ih h1 with h2 | h2
        · exact Or.inl h2
        · exact Or.inr (List.mem_cons_of_mem _ h2)

/-- Unfolding the trend loop over one more record. -/
theorem runTrend_concat (l : List TrendRecord) (r : TrendRecord) :
    runTrend (l ++ [r]) = trendStep (runTrend l) r := by
  simp [runTrend, List.foldl_append]

/-- Unfolding the week counter over one more record. -/
theorem weekFold_concat (l : List TrendRecord) (r : TrendRecord) :
    weekFold (l ++ [r]) =
      if (weekFold l).2 ≠ some (weekKeyOf r)
      then ((weekFold l).1 + 1, some (weekKeyOf r)) else weekFold l := by
  simp [weekFold, List.foldl_append]

/-- The loop's `lastWeekKey` is the week key of the last record seen. -/
theorem weekFold_snd (l : List TrendRecord) :
    (weekFold l).2 = (l.map weekKeyOf).getLast? := by
  induction l using List.reverseRecOn with
  | nil => rfl
  | append_singleton l r ih =>
    rw [weekFold_concat]
    by_cases hk : (weekFold l).2 = some (weekKeyOf r)
    · simp only [hk, ne_eq, not_true_eq_false, if_false, List.map_append,
        List.map_cons, List.map_nil, List.getLast?_concat]
    · simp [hk, List.getLast?_concat]

/-- Once a record has been processed the week counter is positive. -/
theorem weekFold_fst_pos (l : List TrendRecord) (k : ℤ × ℕ)
    (h : (weekFold l).2 = some k) : 0 < (weekFold l).1 := by
  induction l using List.reverseRecOn with
  | nil => simp [weekFold] at h
  | append_singleton l r ih =>
    rw [weekFold_concat] at h ⊢
    by_cases hk : (weekFold l).2 = some (weekKeyOf r)
    · simp only [hk, ne_eq, not_true_eq_false, if_false] at h ⊢
      exact ih (hk.trans h)
    · simp [hk]

/-- Normal form of one loop iteration: the denominator guard is always
taken with `totalHeld + 1 > 0`, so the stored percentage is the
cumulative one. -/
theorem trendStep_eq (st : TrendState) (r : TrendRecord) :
    trendStep st r =
      { trends := upsertTrend st.trends
          (if st.lastWeekKey ≠ some (weekKeyOf r) then st.weekNum + 1 else st.weekNum)
          (cumPct (st.totalHeld + 1)
            (if isAttended r.status then st.totalPresent + 1 else st.totalPresent))
        totalHeld := st.totalHeld + 1
        totalPresent := if isAttended r.status then st.totalPresent + 1 else st.totalPresent
        weekNum := if st.lastWeekKey ≠ some (weekKeyOf r) then st.weekNum + 1 else st.weekNum
        lastWeekKey := if st.lastWeekKey ≠ some (weekKeyOf r) then some (weekKeyOf r)
          else st.lastWeekKey } := by
  simp only [trendStep, cumPct, Nat.zero_lt_succ, if_true, ite_true]

/-- Invariant of `fetchTrendData`'s loop: the counters track the length
and the attended count of the processed prefix, the week counter and
key follow `weekFold`, the accumulated points carry exactly the week
labels `1, 2, …, weekNum` in order, and the final point carries the
cumulative percentage of the whole processed prefix. -/
theorem runTrend_spec (l : List TrendRecord) :
    (runTrend l).totalHeld = l.length ∧
    (runTrend l).totalPresent = countAttended l ∧
    (runTrend l).weekNum = (weekFold l).1 ∧
    (runTrend l).lastWeekKey = (weekFold l).2 ∧
    (runTrend l).trends.map (fun t => t.week) = List.range' 1 (weekFold l).1 ∧
    (runTrend l).trends.getLast?.map (fun t => t.pct) =
      (if l = [] then none else some (cumPct l.length (countAttended l))) := by
  induction l using List.reverseRecOn with
  | nil => simp [runTrend, initTrendState, weekFold, countAttended]
  | append_singleton l r ih =>
    obtain ⟨ih1, ih2, ih3, ih4, ih5, ih6⟩ := ih
    have hTP : (if isAttended r.status then (runTrend l).totalPresent + 1
        else (runTrend l).totalPresent) = countAttended (l ++ [r]) := by
      have : countAttended (l ++ [r]) =
          countAttended l + (if isAttended r.status then 1 else 0) := by
        simp [countAttended, List.countP_append, List.countP_cons]
      rw [this, ih2]
      split <;> omega
    have hTH : (runTrend l).totalHeld + 1 = (l ++ [r]).length := by
      simp [ih1]
    have hne : l ++ [r] ≠ [] := by simp
    rw [runTrend_concat, trendStep_eq, weekFold_concat]
    by_cases hk : (weekFold l).2 = some (weekKeyOf r)
    · -- the record stays in the current week: the final point is replaced
      have hc1 : ¬ ((runTrend l).lastWeekKey ≠ some (weekKeyOf r)) := by
        simp [ih4, hk]
      have hc2 : ¬ ((weekFold l).2 ≠ some (weekKeyOf r)) := by simp [hk]
      simp only [if_neg hc1, if_neg hc2]
      obtain ⟨k', hkeq⟩ : ∃ k', (weekFold l).1 = k' + 1 :=
        ⟨(weekFold l).1 - 1, by have := weekFold_fst_pos l _ hk; omega⟩
      have hup := upsertTrend_range' k' 1 (runTrend l).trends
        (cumPct ((runTrend l).totalHeld + 1)
          (if isAttended r.status then (runTrend l).totalPresent + 1
            else (runTrend l).totalPresent))
        (by rw [ih5, hkeq])
      have hweeknum : (runTrend l).weekNum = 1 + k' := by omega
      refine ⟨hTH, hTP, ih3, ih4, ?_, ?_⟩
      · dsimp only
        rw [hweeknum, hup, List.map_append, List.map_dropLast, ih5, hkeq,
          List.range'_concat 1 k', List.dropLast_concat]
        simp [List.range'_concat]
      · dsimp only
        rw [hweeknum, hup, List.getLast?_concat, if_neg hne, hTP, hTH]
        simp
    · -- the record opens a new week: a new point is appended
      have hc1 : (runTrend l).lastWeekKey ≠ some (weekKeyOf r) := by
        rw [ih4]; exact hk
      have hc2 : (weekFold l).2 ≠ some (weekKeyOf r) := hk
      simp only [if_pos hc1, if_pos hc2]
      have hnotmem : (runTrend l).weekNum + 1 ∉
          (runTrend l).trends.map (fun t => t.week) := by
        rw [ih5, List.mem_range'_1, ih3]
        omega
      have hup := upsertTrend_of_not_mem (runTrend l).trends ((runTrend l).weekNum + 1)
        (cumPct ((runTrend l).totalHeld + 1)
          (if isAttended r.status then (runTrend l).totalPresent + 1
            else (runTrend l).totalPresent)) hnotmem
      refine ⟨hTH, hTP, by simp [ih3], by trivial, ?_, ?_⟩
      · dsimp only
        rw [hup, List.map_append, ih5, ih3, List.range'_concat 1 (weekFold l).1]
        simp [Nat.add_comm]
      · dsimp only
        rw [hup, List.getLast?_concat, if_neg hne, hTP, hTH]
        simp

/-- Division that signals the error case a zero denominator would raise
in PL/pgSQL (`division_by_zero`) or produce in JavaScript
(`NaN`/`Infinity`): it returns `none` exactly there. -/
def divE (a b : ℚ) : Option ℚ :=
  if b = 0 then none else some (a / b)

/-- Error-aware model of `calculate_attendance_buffer`: every division
of the source goes through `divE` under the source's own zero guards, so
the result is `none` exactly when the source would raise or produce a
non-finite number. -/
def calculate_attendance_bufferE (threshold : ℚ) (planned held present : ℤ) :
    Option BufferResult :=
  (if 0 < held then divE (present : ℚ) (held : ℚ) else some 1).bind fun current =>
    (if 0 < planned then divE ((present + remaining_calc planned held : ℤ) : ℚ) (planned : ℚ)
      else some current).bind fun projected =>
      some
        { present_count := present
          held_count := held
          total_planned := planned
          current_pct := pgRound 4 current
          buffer_classes := buffer_classes_calc threshold planned held present
          projected_pct := pgRound 4 projected
          is_safe := decide (threshold ≤ current) }

/-- Error-aware model of one `fetchTrendData` iteration, with the
division behind the source's `totalHeld > 0` guard going through
`divE`. -/
def trendStepE (st : TrendState) (r : TrendRecord) : Option TrendState :=
  let totalHeld := st.totalHeld + 1
  let totalPresent := if isAttended r.status then st.totalPresent + 1 else st.totalPresent
  let key := weekKeyOf r
  let weekNum := if st.lastWeekKey ≠ some key then st.weekNum + 1 else st.weekNum
  let lastWeekKey := if st.lastWeekKey ≠ some key then some key else st.lastWeekKey
  (if 0 < totalHeld then
      (divE (totalPresent : ℚ) (totalHeld : ℚ)).map fun q => ((jsRound (q * 10000) : ℤ) : ℚ) / 100
    else some 100).bind fun pct =>
    some
      { trends := upsertTrend st.trends weekNum pct
        totalHeld := totalHeld
        totalPresent := totalPresent
        weekNum := weekNum
        lastWeekKey := lastWeekKey }

/-- Error-aware model of the whole `fetchTrendData` loop. -/
def fetchTrendDataE (records : List TrendRecord) : Option (List WeeklyTrend) :=
  (records.foldlM trendStepE initTrendState).map fun st => st.trends

/-- The error-aware iteration never fails and agrees with the plain one. -/
theorem trendStepE_eq (st : TrendState) (r : TrendRecord) :
    trendStepE st r = some (trendStep st r) := by
  have h : ((st.totalHeld + 1 : ℕ) : ℚ) ≠ 0 := by
    push_cast
    positivity
  simp only [trendStepE, trendStep, divE, if_neg h, Nat.zero_lt_succ, if_true,
    ite_true, Option.map_some', Option.some_bind]

/-- Variant of the loop body without the `totalHeld > 0` fallback: the
percentage is always the cumulative quotient. -/
def trendStepU (st : TrendState) (r : TrendRecord) : TrendState :=
  let totalHeld := st.totalHeld + 1
  let totalPresent := if isAttended r.status then st.totalPresent + 1 else st.totalPresent
  let key := weekKeyOf r
  let weekNum := if st.lastWeekKey ≠ some key then st.weekNum + 1 else st.weekNum
  let lastWeekKey := if st.lastWeekKey ≠ some key then some key else st.lastWeekKey
  let pct : ℚ := (jsRound ((totalPresent : ℚ) / (totalHeld : ℚ) * 10000) : ℤ) / 100
  { trends := upsertTrend st.trends weekNum pct
    totalHeld := totalHeld
    totalPresent := totalPresent
    weekNum := weekNum
    lastWeekKey := lastWeekKey }

/-- Variant of `fetchTrendData` with the `totalHeld = 0` fallback branch removed. -/
def fetchTrendDataU (records : List TrendRecord) : List WeeklyTrend :=
  (records.foldl trendStepU initTrendState).trends

/-- Chronological order on effective dates (year, then day of year). -/
def dateLe (a b : TrendRecord) : Prop :=
  a.year < b.year ∨ (a.year = b.year ∧ a.dayOfYear ≤ b.dayOfYear)

instance (a b : TrendRecord) : Decidable (dateLe a b) := by
  unfold dateLe
  infer_instance

/-- Order on week keys (year, then week index). -/
def keyLe (a b : ℤ × ℕ) : Prop :=
  a.1 < b.1 ∨ (a.1 = b.1 ∧ a.2 ≤ b.2)

/-- The week key is monotone in the effective date. -/
theorem weekKeyOf_mono {a b : TrendRecord} (h : dateLe a b) :
    keyLe (weekKeyOf a) (weekKeyOf b) := by
  rcases h with h | ⟨h1, h2⟩
  · exact Or.inl h
  · exact Or.inr ⟨h1, Nat.div_le_div_right (by omega)⟩

/-- Antisymmetry of `keyLe`. -/
theorem keyLe_antisymm {a b : ℤ × ℕ} (h1 : keyLe a b) (h2 : keyLe b a) : a = b := by
  rcases a with ⟨ay, aw⟩
  rcases b with ⟨by', bw⟩
  rcases h1 with h1 | ⟨h1, h1'⟩ <;> rcases h2 with h2 | ⟨h2, h2'⟩ <;>
    simp_all <;> omega

/-- In a chronologically ascending stream, a week key occurring in the
prefix and again on the next record must already be the last key of the
prefix (equal keys are contiguous). -/
theorem sorted_key_getLast :
    ∀ (l : List TrendRecord) (r : TrendRecord),
      (l ++ [r]).Pairwise dateLe → weekKeyOf r ∈ l.map weekKeyOf →
      (l.map weekKeyOf).getLast? = some (weekKeyOf r) := by
  intro l
  induction l with
  | nil =>
    intro r _ hmem
    simp at hmem
  | cons x xs ih =>
    intro r hp hmem
    rw [List.cons_append] at hp
    obtain ⟨hx, hrest⟩ := List.pairwise_cons.mp hp
    by_cases hxs : xs = []
    · subst hxs
      have : weekKeyOf r = weekKeyOf x := by simpa using hmem
      simp [this]
    · have hlast : ((x :: xs).map weekKeyOf).getLast? = (xs.map weekKeyOf).getLast? := by
        obtain ⟨y, ys, rfl⟩ := List.exists_cons_of_ne_nil hxs
        simp only [List.map_cons]
        exact List.getLast?_cons_cons
      rw [List.map_cons] at hmem
      rcases List.mem_cons.mp hmem with heq | hmem'
      · have hglmem : xs.getLast hxs ∈ xs := List.getLast_mem hxs
        have h1 : dateLe x (xs.getLast hxs) := hx _ (List.mem_append_left _ hglmem)
        have h2 : dateLe (xs.getLast hxs) r := by
          rcases List.pairwise_append.mp hrest with ⟨_, _, hcross⟩
          exact hcross _ hglmem r (List.mem_singleton.mpr rfl)
        have hkeq : weekKeyOf (xs.getLast hxs) = weekKeyOf r := by
          refine keyLe_antisymm (weekKeyOf_mono h2) ?_
          rw [heq]
          exact weekKeyOf_mono h1
        rw [hlast, List.getLast?_map, List.getLast?_eq_getLast_of_ne_nil hxs]
        simp [hkeq]
      · rw [hlast]
        exact ih r hrest hmem'

/-- For a chronologically ascending stream, the week counter equals the
number of distinct week keys in the stream. -/
theorem weekFold_fst_sorted (l : List TrendRecord) (hs : l.Pairwise dateLe) :
    (weekFold l).1 = ((l.map weekKeyOf).toFinset).card := by
  induction l using List.reverseRecOn with
  | nil => simp [weekFold]
  | append_singleton l r ih =>
    have hsl : l.Pairwise dateLe := hs.sublist (List.sublist_append_left l [r])
    have hfin : ((l ++ [r]).map weekKeyOf).toFinset =
        insert (weekKeyOf r) ((l.map weekKeyOf).toFinset) := by
      ext x
      simp [or_comm]
    rw [weekFold_concat, hfin]
    by_cases hk : (weekFold l).2 = some (weekKeyOf r)
    · have hmem : weekKeyOf r ∈ (l.map weekKeyOf).toFinset := by
        rw [List.mem_toFinset]
        rw [weekFold_snd l] at hk
        obtain ⟨hne, heq⟩ := List.mem_getLast?_eq_getLast (Option.mem_def.mpr hk)
        rw [heq]
        exact List.getLast_mem hne
      rw [if_neg (not_not_intro hk), Finset.card_insert_of_mem hmem]
      exact ih hsl
    · have hnotmem : weekKeyOf r ∉ (l.map weekKeyOf).toFinset := by
        rw [List.mem_toFinset]
        intro hmem
        exact hk ((weekFold_snd l).trans (sorted_key_getLast l r hs hmem))
      rw [if_pos hk, Finset.card_insert_of_not_mem hnotmem]
      dsimp only
      rw [ih hsl]

/-- Per-checkpoint characterization of `fetchTrendData`'s accumulator:
the point at position `i` carries the label `i + 1`, its `projected`
copies its `pct`, and its `pct` is the cumulative percentage after the
shortest prefix of `n` records on which the week counter has reached
`i + 1` for the last time — either the stream ends there, or the next
record already advances the counter to `i + 2`.  So each point holds
the last cumulative value computed while its week was current. -/
theorem runTrend_pct_spec (l : List TrendRecord) :
    ∀ (i : ℕ) (t : WeeklyTrend), (runTrend l).trends[i]? = some t →
      t.week = i + 1 ∧ t.projected = t.pct ∧
      ∃ n : ℕ, 0 < n ∧ n ≤ l.length ∧
        t.pct = cumPct n (countAttended (l.take n)) ∧
        (weekFold (l.take n)).1 = i + 1 ∧
        (n = l.length ∨ (weekFold (l.take (n + 1))).1 = i + 2) := by
  induction l using List.reverseRecOn with
  | nil =>
    intro i t ht
    simp [runTrend, initTrendState] at ht
  | append_singleton l r ih =>
    obtain ⟨ih1, ih2, ih3, ih4, ih5, -⟩ := runTrend_spec l
    have hlen : (runTrend l).trends.length = (weekFold l).1 := by
      have := congrArg List.length ih5
      simpa using this
    have hTP : (if isAttended r.status then (runTrend l).totalPresent + 1
        else (runTrend l).totalPresent) = countAttended (l ++ [r]) := by
      have hc : countAttended (l ++ [r]) =
          countAttended l + (if isAttended r.status then 1 else 0) := by
        simp [countAttended, List.countP_append, List.countP_cons]
      rw [hc, ih2]
      split <;> omega
    have hTH : (runTrend l).totalHeld + 1 = (l ++ [r]).length := by simp [ih1]
    have htake : (l ++ [r]).take ((l ++ [r]).length) = l ++ [r] :=
      List.take_of_length_le (le_refl _)
    intro i t ht
    rw [runTrend_concat, trendStep_eq] at ht
    dsimp only at ht
    by_cases hk : (weekFold l).2 = some (weekKeyOf r)
    · -- the record stays in the current week: the final point was replaced
      have hc1 : ¬ ((runTrend l).lastWeekKey ≠ some (weekKeyOf r)) := by
        simp [ih4, hk]
      simp only [if_neg hc1] at ht
      obtain ⟨k', hkeq⟩ : ∃ k', (weekFold l).1 = k' + 1 :=
        ⟨(weekFold l).1 - 1, by have := weekFold_fst_pos l _ hk; omega⟩
      have hweeknum : (runTrend l).weekNum = 1 + k' := by omega
      have hup := upsertTrend_range' k' 1 (runTrend l).trends
        (cumPct ((runTrend l).totalHeld + 1)
          (if isAttended r.status then (runTrend l).totalPresent + 1
            else (runTrend l).totalPresent))
        (by rw [ih5, hkeq])
      rw [hweeknum, hup] at ht
      have hdll : (runTrend l).trends.dropLast.length = k' := by
        rw [List.length_dropLast, hlen, hkeq]
        omega
      have hwf : weekFold (l ++ [r]) = weekFold l := by
        rw [weekFold_concat, if_neg (not_not_intro hk)]
      rcases lt_trichotomy i k' with hik | hik | hik
      · -- an untouched earlier point
        rw [List.getElem?_append, hdll, if_pos hik, List.dropLast_eq_take,
          List.getElem?_take, if_pos (by rw [hlen, hkeq]; omega)] at ht
        obtain ⟨hw, hpp, n, hn0, hnle, hpct, hwf1, hdisj⟩ := ih i t ht
        have hnll : n ≠ l.length := by
          intro hc
          rw [hc, List.take_length, hkeq] at hwf1
          omega
        refine ⟨hw, hpp, n, hn0, by simp only [List.length_append]; omega,
          ?_, ?_, ?_⟩
        · rw [List.take_append_of_le_length hnle]
          exact hpct
        · rw [List.take_append_of_le_length hnle]
          exact hwf1
        · rcases hdisj with hnl | hsecond
          · exact absurd hnl hnll
          · right
            rw [List.take_append_of_le_length (by omega)]
            exact hsecond
      · -- the replaced final point of the current week
        subst hik
        rw [List.getElem?_append, hdll, if_neg (lt_irrefl _), Nat.sub_self] at ht
        simp only [List.getElem?_cons_zero, Option.some.injEq] at ht
        subst ht
        refine ⟨by dsimp only; omega, rfl, (l ++ [r]).length,
          by simp only [List.length_append, List.length_cons, List.length_nil]; omega,
          le_refl _, ?_, ?_, ?_⟩
        · rw [htake, hTH, hTP]
        · rw [htake, hwf, hkeq]
        · exact Or.inl rfl
      · -- out of range
        rw [List.getElem?_eq_none (by rw [List.length_append, hdll]; simp; omega)] at ht
        simp at ht
    · -- the record opens a new week: a fresh point was appended
      have hc1 : (runTrend l).lastWeekKey ≠ some (weekKeyOf r) := by
        rw [ih4]; exact hk
      simp only [if_pos hc1] at ht
      have hnotmem : (runTrend l).weekNum + 1 ∉
          (runTrend l).trends.map (fun t => t.week) := by
        rw [ih5, List.mem_range'_1, ih3]
        omega
      have hup := upsertTrend_of_not_mem (runTrend l).trends ((runTrend l).weekNum + 1)
        (cumPct ((runTrend l).totalHeld + 1)
          (if isAttended r.status then (runTrend l).totalPresent + 1
            else (runTrend l).totalPresent)) hnotmem
      rw [hup] at ht
      have hwf : weekFold (l ++ [r]) = ((weekFold l).1 + 1, some (weekKeyOf r)) := by
        rw [weekFold_concat, if_pos hk]
      rcases lt_trichotomy i (weekFold l).1 with hik | hik | hik
      · -- an untouched earlier point
        rw [List.getElem?_append, hlen, if_pos hik] at ht
        obtain ⟨hw, hpp, n, hn0, hnle, hpct, hwf1, hdisj⟩ := ih i t ht
        refine ⟨hw, hpp, n, hn0, by simp only [List.length_append]; omega,
          ?_, ?_, ?_⟩
        · rw [List.take_append_of_le_length hnle]
          exact hpct
        · rw [List.take_append_of_le_length hnle]
          exact hwf1
        · rcases hdisj with hnl | hsecond
          · -- the previously final point: the new record ends its week
            right
            have hprev : (weekFold l).1 = i + 1 := by
              rw [hnl, List.take_length] at hwf1
              exact hwf1
            rw [hnl, show (l ++ [r]).take (l.length + 1) = l ++ [r] from
              List.take_of_length_le (by simp), hwf]
            omega
          · right
            have hn1 : n + 1 ≤ l.length := by
              rcases Nat.lt_or_ge n l.length with h | h
              · omega
              · exfalso
                have hnl2 : n = l.length := le_antisymm hnle h
                rw [hnl2, List.take_length] at hwf1
                rw [hnl2, List.take_of_length_le (by omega)] at hsecond
                omega
            rw [List.take_append_of_le_length hn1]
            exact hsecond
      · -- the freshly appended point
        subst hik
        rw [List.getElem?_append, hlen, if_neg (lt_irrefl _), Nat.sub_self] at ht
        simp only [List.getElem?_cons_zero, Option.some.injEq] at ht
        subst ht
        refine ⟨by dsimp only; rw [ih3], rfl, (l ++ [r]).length,
          by simp only [List.length_append, List.length_cons, List.length_nil]; omega,
          le_refl _, ?_, ?_, ?_⟩
        · rw [htake, hTH, hTP]
        · rw [htake, hwf]
        · exact Or.inl rfl
      · -- out of range
        rw [List.getElem?_eq_none (by rw [List.length_append, hlen]; simp; omega)] at ht
        simp at ht

/-- C2: for threshold 0.75, totalPlanned 40, heldCount 20, presentCount
18, the buffer calculator returns currentPct 0.9, remaining 20,
requiredTotal ceil(0.75·40) = 30, bufferClasses max((18+20)−30, 0) = 8,
projectedPct (18+20)/40 = 0.95, and isSafe true. -/
theorem C2_scenarioA :
    calculate_attendance_buffer (3/4) 40 20 18 =
      { present_count := 18, held_count := 20, total_planned := 40,
        current_pct := 9/10, buffer_classes := 8, projected_pct := 19/20,
        is_safe := true } ∧
    remaining_calc 40 20 = 20 ∧ required_total (3/4) 40 = 30 := by
  refine ⟨?_, by norm_num [remaining_calc], by norm_num [required_total]⟩
  norm_num [calculate_attendance_buffer, current_pct_raw, remaining_calc,
    required_total, buffer_classes_calc, projected_pct_raw, pgRound]

/-- C7: the computed remaining equals max(totalPlanned − heldCount, 0),
is never negative even when heldCount exceeds totalPlanned, and the
computed bufferClasses is never negative, for all inputs. -/
theorem C7_nonnegativity (threshold : ℚ) (planned held present : ℤ) :
    remaining_calc planned held = max (planned - held) 0 ∧
    0 ≤ remaining_calc planned held ∧
    0 ≤ (calculate_attendance_buffer threshold planned held present).buffer_classes := by
  refine ⟨rfl, le_max_right _ _, ?_⟩
  exact le_max_right _ _

/-- C6: with heldCount, totalPlanned and threshold fixed, bufferClasses
is non-decreasing in presentCount. -/
theorem C6_buffer_monotone (threshold : ℚ) (planned held p1 p2 : ℤ)
    (h : p1 ≤ p2) :
    (calculate_attendance_buffer threshold planned held p1).buffer_classes ≤
      (calculate_attendance_buffer threshold planned held p2).buffer_classes := by
  have : buffer_classes_calc threshold planned held p1 ≤
      buffer_classes_calc threshold planned held p2 :=
    max_le_max (sub_le_sub_right (add_le_add_right h _) _) le_rfl
  exact this

/-- Witness for C6 at presentCount 10 ≤ 18 (threshold 0.75, planned 40,
held 20). -/
theorem C6_buffer_monotone_witness :
    (calculate_attendance_buffer (3/4) 40 20 10).buffer_classes ≤
      (calculate_attendance_buffer (3/4) 40 20 18).buffer_classes :=
  C6_buffer_monotone (3/4) 40 20 10 18 (by norm_num)

/-- C4 fails as stated: the threshold column is NUMERIC(4,2) with no
check constraint, and for a configured threshold above 1 (here 1.5) a
subject with heldCount 0 gets current_pct 1.0 but is_safe false, because
is_safe is the comparison current_pct ≥ threshold. -/
theorem C4_counterexample :
    (calculate_attendance_buffer (3/2) 10 0 0).is_safe = false := by
  simp only [calculate_attendance_buffer, current_pct_raw]
  norm_num

/-- C4 amended: for every subject with heldCount 0 the buffer calculator
returns current_pct 1.0, and is_safe true for every threshold ≤ 1 (a
representable threshold above 1 yields is_safe false, as the
counterexample shows). -/
theorem C4_zero_held_safe (threshold : ℚ) (planned present : ℤ)
    (h : threshold ≤ 1) :
    (calculate_attendance_buffer threshold planned 0 present).current_pct = 1 ∧
    (calculate_attendance_buffer threshold planned 0 present).is_safe = true := by
  constructor
  · norm_num [calculate_attendance_buffer, current_pct_raw, pgRound]
  · simp only [calculate_attendance_buffer, current_pct_raw]
    norm_num
    exact h

/-- Witness for C4 at threshold 0.75, planned 10, present 5. -/
theorem C4_zero_held_safe_witness :
    (calculate_attendance_buffer (3/4) 10 0 5).current_pct = 1 ∧
    (calculate_attendance_buffer (3/4) 10 0 5).is_safe = true :=
  C4_zero_held_safe (3/4) 10 5 (by norm_num)

/-- C9: under the data-integrity precondition 0 ≤ presentCount ≤
heldCount and totalPlanned ≥ 0, the unrounded projected percentage is
never below the unrounded current percentage, in every branch of the
calculator. -/
theorem C9_projected_ge_current (planned held present : ℤ)
    (hp : 0 ≤ present) (hph : present ≤ held) (hpl : 0 ≤ planned) :
    current_pct_raw held present ≤ projected_pct_raw planned held present := by
  unfold projected_pct_raw
  by_cases hpl0 : 0 < planned
  · rw [if_pos hpl0]
    by_cases hh : 0 < held
    · unfold current_pct_raw
      rw [if_pos hh]
      by_cases hhp : held ≤ planned
      · rw [remaining_calc, max_eq_left (by omega)]
        have hhq : (0:ℚ) < (held : ℚ) := by exact_mod_cast hh
        have hplq : (0:ℚ) < (planned : ℚ) := by exact_mod_cast hpl0
        rw [div_le_div_iff₀ hhq hplq]
        push_cast
        have c1 : (held:ℚ) ≤ (planned:ℚ) := by exact_mod_cast hhp
        have c2 : (present:ℚ) ≤ (held:ℚ) := by exact_mod_cast hph
        nlinarith [mul_nonneg (sub_nonneg.mpr c1) (sub_nonneg.mpr c2)]
      · rw [remaining_calc, max_eq_right (by omega), add_zero]
        have hhq : (0:ℚ) < (held : ℚ) := by exact_mod_cast hh
        have hplq : (0:ℚ) < (planned : ℚ) := by exact_mod_cast hpl0
        have hpq : (0:ℚ) ≤ (present : ℚ) := by exact_mod_cast hp
        have hle : (planned:ℚ) ≤ (held:ℚ) := by
          exact_mod_cast le_of_lt (by omega : planned < held)
        gcongr
    · have hh0 : held = 0 := by omega
      have hp0 : present = 0 := by omega
      subst hh0
      subst hp0
      unfold current_pct_raw
      rw [if_neg hh, remaining_calc]
      have : max (planned - 0) 0 = planned := by omega
      rw [this]
      push_cast
      rw [zero_add, div_self (by positivity)]
  · rw [if_neg hpl0]

/-- Witness for C9 at planned 40, held 20, present 18. -/
theorem C9_projected_ge_current_witness :
    (0:ℤ) ≤ 18 ∧ (18:ℤ) ≤ 20 ∧ (0:ℤ) ≤ 40 ∧
    current_pct_raw 20 18 ≤ projected_pct_raw 40 20 18 :=
  ⟨by norm_num, by norm_num, by norm_num,
    C9_projected_ge_current 40 20 18 (by norm_num) (by norm_num) (by norm_num)⟩

/-- The error-aware loop never fails, from any start state. -/
theorem foldlM_trendStepE (l : List TrendRecord) :
    ∀ st : TrendState, l.foldlM trendStepE st = some (l.foldl trendStep st) := by
  induction l with
  | nil => intro st; rfl
  | cons r rs ih =>
    intro st
    rw [List.foldlM_cons, trendStepE_eq, List.foldl_cons]
    exact ih (trendStep st r)

/-- C5: on every input the error-aware models of both computations
return `some` of the plain result — neither the buffer calculator nor
the trend aggregator can hit a zero denominator (raise, or produce
NaN/Infinity): each zero-denominator situation is caught by the
source's own guard and yields the defined fallback. -/
theorem C5_no_failure (threshold : ℚ) (planned held present : ℤ)
    (l : List TrendRecord) :
    calculate_attendance_bufferE threshold planned held present =
      some (calculate_attendance_buffer threshold planned held present) ∧
    fetchTrendDataE l = some (fetchTrendData l) := by
  constructor
  · unfold calculate_attendance_bufferE calculate_attendance_buffer divE
    unfold current_pct_raw projected_pct_raw
    by_cases hh : 0 < held <;> by_cases hpl : 0 < planned
    · have h1 : ((held : ℚ)) ≠ 0 := by
        have : (0:ℚ) < (held:ℚ) := by exact_mod_cast hh
        positivity
      have h2 : ((planned : ℚ)) ≠ 0 := by
        have : (0:ℚ) < (planned:ℚ) := by exact_mod_cast hpl
        positivity
      simp [hh, hpl, h1, h2, current_pct_raw]
    · have h1 : ((held : ℚ)) ≠ 0 := by
        have : (0:ℚ) < (held:ℚ) := by exact_mod_cast hh
        positivity
      simp [hh, hpl, h1, current_pct_raw]
    · have h2 : ((planned : ℚ)) ≠ 0 := by
        have : (0:ℚ) < (planned:ℚ) := by exact_mod_cast hpl
        positivity
      simp [hh, hpl, h2, current_pct_raw]
    · simp [hh, hpl, current_pct_raw]
  · unfold fetchTrendDataE fetchTrendData runTrend
    rw [foldlM_trendStepE l initTrendState]
    rfl

/-- C10: the `totalHeld = 0` fallback (pct 100) is unreachable —
`totalHeld` is incremented before the percentage is computed, so the
aggregator equals its fallback-free variant on every stream, and every
emitted checkpoint's pct is the rounded quotient of counters with a
positive denominator. -/
theorem C10_fallback_unreachable (l : List TrendRecord) :
    fetchTrendData l = fetchTrendDataU l ∧
    ∀ t ∈ fetchTrendData l, ∃ held present : ℕ,
      0 < held ∧ t.pct = cumPct held present := by
  constructor
  · have hstep : trendStep = trendStepU := by
      funext st r
      simp only [trendStep, trendStepU, Nat.zero_lt_succ, if_true, ite_true]
    simp only [fetchTrendData, fetchTrendDataU, runTrend, hstep]
  · have key : ∀ m : List TrendRecord, ∀ t ∈ (runTrend m).trends,
        ∃ held present : ℕ, 0 < held ∧ t.pct = cumPct held present := by
      intro m
      induction m using List.reverseRecOn with
      | nil =>
        intro t ht
        simp [runTrend, initTrendState] at ht
      | append_singleton m r ih =>
        intro t ht
        rw [runTrend_concat, trendStep_eq] at ht
        dsimp only at ht
        rcases mem_upsertTrend ht with h1 | h1
        · exact ⟨(runTrend m).totalHeld + 1, _, Nat.succ_pos _, by rw [h1]⟩
        · exact ih t h1
    exact key l

/-- C1 fails as stated: for the single-record stream of one attended
session (heldCount 1, presentCount 1) the trend aggregator's latest
checkpoint reports 100 (a 0–100 percentage) while the buffer
calculator's rounded current_pct is 1 (a 0–1 fraction). -/
theorem C1_counterexample :
    (fetchTrendData [⟨Status.present, 2025, 6⟩]).getLast?.map (fun t => t.pct) =
      some 100 ∧
    (calculate_attendance_buffer (3/4) 1 1 1).current_pct = 1 ∧
    (100 : ℚ) ≠ 1 := by
  refine ⟨?_, ?_, by norm_num⟩
  · norm_num [fetchTrendData, runTrend, List.foldl, trendStep, initTrendState,
      upsertTrend, weekKeyOf, isAttended, jsRound]
  · norm_num [calculate_attendance_buffer, current_pct_raw, pgRound]

/-- C1 amended: on a non-empty stream holding exactly the records the
buffer calculator counts (heldCount = stream length, presentCount =
attended records), the latest checkpoint's pct equals 100 times the
buffer calculator's rounded current_pct — the two agree up to the scale
(percentage 0–100 with two decimals versus fraction 0–1 with four). -/
theorem C1_latest_checkpoint (threshold : ℚ) (planned : ℤ)
    (l : List TrendRecord) (h : l ≠ []) :
    (fetchTrendData l).getLast?.map (fun t => t.pct) =
      some (100 * (calculate_attendance_buffer threshold planned
        (l.length : ℤ) ((countAttended l : ℕ) : ℤ)).current_pct) := by
  obtain ⟨-, -, -, -, -, h6⟩ := runTrend_spec l
  have hfd : fetchTrendData l = (runTrend l).trends := rfl
  rw [hfd, h6, if_neg h]
  congr 1
  have hlen0 : 0 < l.length := List.length_pos.mpr h
  have hlenz : (0:ℤ) < ((l.length : ℕ) : ℤ) := by exact_mod_cast hlen0
  show cumPct l.length (countAttended l) =
    100 * pgRound 4 (current_pct_raw (l.length : ℤ) ((countAttended l : ℕ) : ℤ))
  rw [current_pct_raw, if_pos hlenz]
  have hx : (0:ℚ) ≤ (((countAttended l : ℕ) : ℤ) : ℚ) / (((l.length : ℕ) : ℤ) : ℚ) := by
    positivity
  rw [pgRound, if_pos hx, cumPct, jsRound]
  push_cast
  norm_num
  ring

/-- Witness for C1 amended, on the single-record stream. -/
theorem C1_latest_checkpoint_witness :
    ([⟨Status.present, 2025, 6⟩] : List TrendRecord) ≠ [] ∧
    (fetchTrendData [⟨Status.present, 2025, 6⟩]).getLast?.map (fun t => t.pct) =
      some (100 * (calculate_attendance_buffer (3/4) 1
        (([⟨Status.present, 2025, 6⟩] : List TrendRecord).length : ℤ)
        ((countAttended [⟨Status.present, 2025, 6⟩] : ℕ) : ℤ)).current_pct) :=
  ⟨by simp, C1_latest_checkpoint (3/4) 1 [⟨Status.present, 2025, 6⟩] (by simp)⟩

/-- C3: what the code actually produces on the stream
[(present, 2025-01-06), (absent, 2025-01-08), (present, 2025-01-13)]:
its week key is ceil(dayOfYear/7), not the ISO week number, so
2025-01-06 (day 6) falls in key week 1 while 2025-01-08 (day 8) opens
key week 2 — the first two records do not share a week — and the
emitted checkpoints are Week 1 with pct 100 and Week 2 with pct 66.67
(percentage scale), not Week 1 with 0.5 and Week 2 with ≈0.67. -/
theorem C3_actual_output :
    fetchTrendData [⟨Status.present, 2025, 6⟩, ⟨Status.absent, 2025, 8⟩,
        ⟨Status.present, 2025, 13⟩] =
      [⟨1, 100, 100⟩, ⟨2, 6667/100, 6667/100⟩] ∧
    weekKeyOf ⟨Status.present, 2025, 6⟩ ≠ weekKeyOf ⟨Status.absent, 2025, 8⟩ ∧
    weekKeyOf ⟨Status.absent, 2025, 8⟩ = weekKeyOf ⟨Status.present, 2025, 13⟩ := by
  refine ⟨?_, by simp [weekKeyOf], by simp [weekKeyOf]⟩
  norm_num [fetchTrendData, runTrend, List.foldl, trendStep, initTrendState,
    upsertTrend, weekKeyOf, isAttended, jsRound]
  simp

/-- C8: on a chronologically ascending stream the checkpoints carry the
labels 1, 2, …, k in strictly increasing order with no duplicates, and
there are exactly as many checkpoints as distinct week keys in the
stream — every repeated week key collapses into the single checkpoint
of its week — and the checkpoint at position i holds the last cumulative
value computed for its week: the cumulative percentage after a prefix
of n records on which the week counter has value i + 1, where either
the stream ends at n or the next record already opens week i + 2. -/
theorem C8_trend_ordering (l : List TrendRecord) (hs : l.Pairwise dateLe) :
    (fetchTrendData l).map (fun t => t.week) =
      List.range' 1 ((fetchTrendData l).length) ∧
    (fetchTrendData l).length = ((l.map weekKeyOf).dedup).length ∧
    ((fetchTrendData l).map (fun t => t.week)).Nodup ∧
    (∀ (i : ℕ) (t : WeeklyTrend), (fetchTrendData l)[i]? = some t →
      t.week = i + 1 ∧ t.projected = t.pct ∧
      ∃ n : ℕ, 0 < n ∧ n ≤ l.length ∧
        t.pct = cumPct n (countAttended (l.take n)) ∧
        (weekFold (l.take n)).1 = i + 1 ∧
        (n = l.length ∨ (weekFold (l.take (n + 1))).1 = i + 2)) := by
  obtain ⟨-, -, -, -, h5, -⟩ := runTrend_spec l
  have hfd : fetchTrendData l = (runTrend l).trends := rfl
  have hlen : (fetchTrendData l).length = (weekFold l).1 := by
    rw [hfd]
    have := congrArg List.length h5
    simpa using this
  refine ⟨?_, ?_, ?_, ?_⟩
  · rw [hlen, hfd, h5]
  · rw [hlen, weekFold_fst_sorted l hs, List.card_toFinset]
  · rw [hfd, h5]
    exact List.nodup_range' _ _
  · intro i t ht
    exact runTrend_pct_spec l i t (hfd ▸ ht)

/-- Witness for C8 on the three-record ascending stream of C3's
scenario. -/
theorem C8_trend_ordering_witness :
    ([⟨Status.present, 2025, 6⟩, ⟨Status.absent, 2025, 8⟩,
        ⟨Status.present, 2025, 13⟩] : List TrendRecord).Pairwise dateLe ∧
    ((fetchTrendData [⟨Status.present, 2025, 6⟩, ⟨Status.absent, 2025, 8⟩,
        ⟨Status.present, 2025, 13⟩]).map (fun t => t.week) =
      List.range' 1 ((fetchTrendData [⟨Status.present, 2025, 6⟩,
        ⟨Status.absent, 2025, 8⟩, ⟨Status.present, 2025, 13⟩]).length) ∧
    (fetchTrendData [⟨Status.present, 2025, 6⟩, ⟨Status.absent, 2025, 8⟩,
        ⟨Status.present, 2025, 13⟩]).length =
      (([⟨Status.present, 2025, 6⟩, ⟨Status.absent, 2025, 8⟩,
        ⟨Status.present, 2025, 13⟩] : List TrendRecord).map weekKeyOf).dedup.length ∧
    ((fetchTrendData [⟨Status.present, 2025, 6⟩, ⟨Status.absent, 2025, 8⟩,
        ⟨Status.present, 2025, 13⟩]).map (fun t => t.week)).Nodup ∧
    (∀ (i : ℕ) (t : WeeklyTrend),
      (fetchTrendData [⟨Status.present, 2025, 6⟩, ⟨Status.absent, 2025, 8⟩,
        ⟨Status.present, 2025, 13⟩])[i]? = some t →
      t.week = i + 1 ∧ t.projected = t.pct ∧
      ∃ n : ℕ, 0 < n ∧
        n ≤ ([⟨Status.present, 2025, 6⟩, ⟨Status.absent, 2025, 8⟩,
          ⟨Status.present, 2025, 13⟩] : List TrendRecord).length ∧
        t.pct = cumPct n (countAttended
          (([⟨Status.present, 2025, 6⟩, ⟨Status.absent, 2025, 8⟩,
            ⟨Status.present, 2025, 13⟩] : List TrendRecord).take n)) ∧
        (weekFold (([⟨Status.present, 2025, 6⟩, ⟨Status.absent, 2025, 8⟩,
          ⟨Status.present, 2025, 13⟩] : List TrendRecord).take n)).1 = i + 1 ∧
        (n = ([⟨Status.present, 2025, 6⟩, ⟨Status.absent, 2025, 8⟩,
            ⟨Status.present, 2025, 13⟩] : List TrendRecord).length ∨
          (weekFold (([⟨Status.present, 2025, 6⟩, ⟨Status.absent, 2025, 8⟩,
            ⟨Status.present, 2025, 13⟩] : List TrendRecord).take (n + 1))).1 = i + 2))) :=
  ⟨by simp [List.pairwise_cons, dateLe],
    C8_trend_ordering [⟨Status.present, 2025, 6⟩, ⟨Status.absent, 2025, 8⟩,
      ⟨Status.present, 2025, 13⟩] (by simp [List.pairwise_cons, dateLe])⟩
